import Mathlib

/-!
Verification of the blob-store core of the `data` tool: hash validation,
de-duplicated batch put/get, manifest path resolution, and the SHA-1 hasher.
Definitions are shallow embeddings of the Go source (`util.go`, `data_blob.go`);
`Manifest.PathsForHash` is modelled from the spec since its implementation is
not part of the analysed sources.
-/

namespace Cknu

/-- Code-point test for `unicode.ASCII_Hex_Digit`, i.e. `[0-9a-fA-F]`,
as used by `isHash` in `util.go`. -/
def isHexDigitChar (c : Char) : Bool :=
  (decide (48 ≤ c.toNat) && decide (c.toNat ≤ 57)) ||
  (decide (97 ≤ c.toNat) && decide (c.toNat ≤ 102)) ||
  (decide (65 ≤ c.toNat) && decide (c.toNat ≤ 70))

/-- UTF-8 byte width of a character; Go `len` on a string counts bytes. -/
def goUtf8Size (c : Char) : Nat :=
  if c.toNat < 128 then 1
  else if c.toNat < 2048 then 2
  else if c.toNat < 65536 then 3
  else 4

/-- Go `len` of a string: total UTF-8 byte count of its characters. -/
def goLen (s : List Char) : Nat := (s.map goUtf8Size).sum

/-- `isHash` from `util.go`: the string must have Go length 40 and every rune
must be an ASCII hex digit. -/
def isHash (s : String) : Bool :=
  decide (goLen s.toList = 40) && s.toList.all isHexDigitChar

/-- `shortHash` from `util.go` is `hash[:7]`; Go slices strings by bytes and
panics when the string has fewer than 7 bytes, which is modelled as `none`.
Bytes are modelled as `Nat`. -/
def shortHash (hash : List Nat) : Option (List Nat) :=
  if 7 ≤ hash.length then some (hash.take 7) else none

/-- Loop of `set` from `util.go`: first-occurrence de-duplication, carrying
the set of already-seen elements. -/
def setLoop : List String → List String → List String
  | [], _ => []
  | x :: rest, seen =>
    if seen.contains x then setLoop rest seen
    else x :: setLoop rest (x :: seen)

/-- `set` from `util.go`: removes later duplicates, keeping first-seen order. -/
def set (slice : List String) : List String := setLoop slice []

/-- Loop of `validHashes` from `util.go`: appends valid hashes, records an
error (overwriting any earlier one) for each invalid hash. -/
def vhLoop : List String → List String × Option String → List String × Option String
  | [], acc => acc
  | h :: rest, (valid, err) =>
    if isHash h then vhLoop rest (valid ++ [h], err)
    else vhLoop rest (valid, some ("invalid <hash>: " ++ h))

/-- `validHashes` from `util.go`: de-duplicates the input with `set`, then
collects the valid hashes, returning the last invalid hash error if any. -/
def validHashes (hashes : List String) : List String × Option String :=
  vhLoop (set hashes) ([], none)

lemma hex_goUtf8Size_one (c : Char) (h : isHexDigitChar c = true) :
    goUtf8Size c = 1 := by
  have h128 : c.toNat < 128 := by
    simp only [isHexDigitChar, Bool.or_eq_true, Bool.and_eq_true,
      decide_eq_true_eq] at h
    omega
  simp [goUtf8Size, h128]

lemma goLen_eq_length (l : List Char) (h : ∀ c ∈ l, isHexDigitChar c = true) :
    goLen l = l.length := by
  induction l with
  | nil => simp [goLen]
  | cons c t ih =>
    have hc : goUtf8Size c = 1 := hex_goUtf8Size_one c (h c (by simp))
    have ht := ih (fun x hx => h x (by simp [hx]))
    simp only [goLen, List.map_cons, List.sum_cons, List.length_cons] at ht ⊢
    rw [hc]
    omega

/-- A 40-character string of the letter a: a syntactically valid hash. -/
def hashA : String := String.mk (List.replicate 40 'a')

/-- A 40-character string of the letter b: a syntactically valid hash. -/
def hashB : String := String.mk (List.replicate 40 'b')

/-- A 40-character string of the letter g: right length, not hex. -/
def hashG : String := String.mk (List.replicate 40 'g')

/-- C3: `isHash` accepts exactly the strings of 40 characters that are all
ASCII hex digits; 40 letters a pass, 40 letters g fail, and a short string
fails. -/
theorem isHash_spec :
    (∀ s : String, isHash s = true ↔
      (s.toList.length = 40 ∧ ∀ c ∈ s.toList, isHexDigitChar c = true))
    ∧ isHash hashA = true
    ∧ isHash hashG = false
    ∧ isHash "abc" = false := by
  refine ⟨fun s => ?_, by decide, by decide, by decide⟩
  constructor
  · intro h
    simp only [isHash, Bool.and_eq_true, decide_eq_true_eq,
      List.all_eq_true] at h
    exact ⟨by rw [← goLen_eq_length _ h.2]; exact h.1, h.2⟩
  · intro ⟨h40, hhex⟩
    simp only [isHash, Bool.and_eq_true, decide_eq_true_eq, List.all_eq_true]
    exact ⟨by rw [goLen_eq_length _ hhex]; exact h40, hhex⟩

/-- C8 counterexample: `shortHash` applied to the three-byte string abc is
not defined (the Go code panics: slice bounds out of range), so `shortHash`
does not return a 7-character result on every string input. -/
theorem shortHash_abc_panics : shortHash [97, 98, 99] = none := rfl

/-- C8 amended: on every string of at least 7 bytes, `shortHash` returns the
first 7 bytes (the first 7 characters of an ASCII string). -/
theorem shortHash_amended (hash : List Nat) (h : 7 ≤ hash.length) :
    shortHash hash = some (hash.take 7) := by
  simp [shortHash, h]

/-- Witness for the amended C8 at a 40-byte input. -/
theorem shortHash_amended_witness :
    7 ≤ (List.replicate 40 97).length
    ∧ shortHash (List.replicate 40 97) = some ((List.replicate 40 97).take 7) :=
  ⟨by decide, shortHash_amended (List.replicate 40 97) (by decide)⟩

lemma vhLoop_fst (l : List String) (v : List String) (e : Option String) :
    (vhLoop l (v, e)).1 = v ++ l.filter (fun h => isHash h) := by
  induction l generalizing v e with
  | nil => simp [vhLoop]
  | cons h rest ih =>
    by_cases hh : isHash h
    · simp [vhLoop, hh, ih, List.filter_cons]
    · simp [vhLoop, hh, ih, List.filter_cons]

lemma vhLoop_snd (l : List String) (v : List String) (e : Option String) :
    ((vhLoop l (v, e)).2 ≠ none ↔ (∃ h ∈ l, isHash h = false) ∨ e ≠ none) := by
  induction l generalizing v e with
  | nil => simp [vhLoop]
  | cons h rest ih =>
    by_cases hh : isHash h
    · rw [show vhLoop (h :: rest) (v, e) = vhLoop rest (v ++ [h], e) by
        simp [vhLoop, hh]]
      rw [ih]
      constructor
      · rintro (⟨x, hx, hxv⟩ | he)
        · exact Or.inl ⟨x, by simp [hx], hxv⟩
        · exact Or.inr he
      · rintro (⟨x, hx, hxv⟩ | he)
        · rcases List.mem_cons.mp hx with rfl | hx2
          · rw [hh] at hxv; cases hxv
          · exact Or.inl ⟨x, hx2, hxv⟩
        · exact Or.inr he
    · rw [show vhLoop (h :: rest) (v, e)
          = vhLoop rest (v, some ("invalid <hash>: " ++ h)) by
        simp [vhLoop, hh]]
      rw [ih]
      simp only [ne_eq, reduceCtorEq, not_false_eq_true, or_true, true_iff]
      exact Or.inl ⟨h, by simp, by simpa using hh⟩

/-- C10: `validHashes` returns the valid members of the first-occurrence
de-duplicated input in order, and a non-nil error exactly when the
de-duplicated input contains an invalid hash. -/
theorem validHashes_spec (hashes : List String) :
    (validHashes hashes).1 = (set hashes).filter (fun h => isHash h)
    ∧ ((validHashes hashes).2 ≠ none ↔ ∃ h ∈ set hashes, isHash h = false) := by
  refine ⟨by simpa using vhLoop_fst (set hashes) [] none, ?_⟩
  rw [validHashes, vhLoop_snd]
  simp

/-- Transfer-level operation performed against the store or the filesystem by
the per-hash functions of `data_blob.go`. -/
inductive TOp where
  | storeGet (hash : String) (path : String)
  | storePut (hash : String) (path : String)
  | copyFile (src : String) (dst : String)
deriving DecidableEq

/-- Event in the trace of a batch run: either an invocation of the per-hash
transfer function by `blobCmdRunFunc`, or a transfer-level operation. -/
inductive Ev where
  | invoke (hash : String) (paths : List String)
  | op (t : TOp)
deriving DecidableEq

/-- The errors `blobCmdRunFunc` and the per-hash functions can return,
one constructor per distinct error source in `data_blob.go`. -/
inductive DataError where
  | argRequired
  | invalidHash (hash : String)
  | notFound (hash : String)
  | storeErr (msg : String)
  | copyErr (msg : String)
  | indexErr (msg : String)
  | emptyPaths
deriving DecidableEq

/-- Environment of a batch run: the manifest mapping and the outcomes of the
store and filesystem operations (which `data_blob.go` treats as opaque). -/
structure Env where
  manifest : String → List String
  putRes : String → String → Except String Unit
  getRes : String → String → Except String Unit
  copyRes : String → String → Except String Unit

/-- `blobPaths` from `data_blob.go`, resolving a hash through the manifest.
Modelled from the spec: the implementation of `Manifest.PathsForHash` is not
among the analysed sources; the spec states it returns the tracked paths for
the hash and fails with `NotFoundError` when no tracked path matches. -/
def blobPaths (env : Env) (hash : String) : Except DataError (List String) :=
  match env.manifest hash with
  | [] => Except.error (DataError.notFound hash)
  | ps => Except.ok ps

/-- The per-hash closure of `blobPutCmd`: uploads the blob from the first
path. Returns the outcome together with the operations performed. The `[]`
case models the out-of-range panic Go would hit on `paths[0]`. -/
def putF (env : Env) (hash : String) (paths : List String) :
    Except DataError Unit × List TOp :=
  match paths with
  | [] => (Except.error DataError.emptyPaths, [])
  | p :: _ =>
    match env.putRes hash p with
    | Except.ok _ => (Except.ok (), [TOp.storePut hash p])
    | Except.error e => (Except.error (DataError.storeErr e), [TOp.storePut hash p])

/-- The copy loop of `blobGetCmd`: replicates the fetched file to each
remaining path, aborting on the first failing copy. -/
def copyLoop (env : Env) (src : String) :
    List String → Except DataError Unit × List TOp
  | [] => (Except.ok (), [])
  | p :: rest =>
    match env.copyRes src p with
    | Except.error e => (Except.error (DataError.copyErr e), [TOp.copyFile src p])
    | Except.ok _ =>
      let r := copyLoop env src rest
      (r.1, TOp.copyFile src p :: r.2)

/-- The per-hash closure of `blobGetCmd`: downloads the blob to the first
path, then copies it to every additional path. The `[]` case models the
out-of-range panic Go would hit on `paths[0]`. -/
def getF (env : Env) (hash : String) (paths : List String) :
    Except DataError Unit × List TOp :=
  match paths with
  | [] => (Except.error DataError.emptyPaths, [])
  | p :: rest =>
    match env.getRes hash p with
    | Except.error e => (Except.error (DataError.storeErr e), [TOp.storeGet hash p])
    | Except.ok _ =>
      let r := copyLoop env p rest
      (r.1, TOp.storeGet hash p :: r.2)

/-- The loop of `blobCmdRunFunc` from `data_blob.go`: for each hash in order,
skip it if already done, reject it if not a valid hash, resolve its paths,
run the transfer function, abort on any error, and record it as done. -/
def runLoop (env : Env)
    (f : String → List String → Except DataError Unit × List TOp) :
    List String → List String → Except DataError Unit × List Ev
  | [], _ => (Except.ok (), [])
  | hash :: rest, done =>
    if done.contains hash then runLoop env f rest done
    else if ! isHash hash then (Except.error (DataError.invalidHash hash), [])
    else
      match blobPaths env hash with
      | Except.error e => (Except.error e, [])
      | Except.ok paths =>
        let r := f hash paths
        match r.1 with
        | Except.error e => (Except.error e, Ev.invoke hash paths :: r.2.map Ev.op)
        | Except.ok _ =>
          let r2 := runLoop env f rest (hash :: done)
          (r2.1, (Ev.invoke hash paths :: r.2.map Ev.op) ++ r2.2)

/-- `blobCmdRunFunc` from `data_blob.go`: requires at least one hash, builds
the data index (whose outcome is `indexRes`), then runs the loop with an
empty seen-set. -/
def blobCmdRunFunc (env : Env) (indexRes : Except String Unit)
    (f : String → List String → Except DataError Unit × List TOp)
    (hashes : List String) : Except DataError Unit × List Ev :=
  if hashes.length < 1 then (Except.error DataError.argRequired, [])
  else
    match indexRes with
    | Except.error e => (Except.error (DataError.indexErr e), [])
    | Except.ok _ => runLoop env f hashes []

/-- C9: on an empty hash list, `blobCmdRunFunc` fails with the
argument-required error, independently of the data index construction, the
environment and the transfer function, and performs no operation at all. -/
theorem empty_batch_arg_error :
    ∀ (env : Env) (indexRes : Except String Unit)
      (f : String → List String → Except DataError Unit × List TOp),
      blobCmdRunFunc env indexRes f []
        = (Except.error DataError.argRequired, []) := by
  intro env indexRes f
  rfl

/-- Environment with one tracked file for `hashA` and all operations
succeeding. -/
def envA : Env where
  manifest := fun h => if h == hashA then ["fileA"] else []
  putRes := fun _ _ => Except.ok ()
  getRes := fun _ _ => Except.ok ()
  copyRes := fun _ _ => Except.ok ()

lemma blobPaths_ok (env : Env) (x : String) (h : env.manifest x ≠ []) :
    blobPaths env x = Except.ok (env.manifest x) := by
  rcases hm : env.manifest x with _ | ⟨p, ps⟩
  · exact absurd hm h
  · simp [blobPaths, hm]

lemma runLoop_cons_skip (env : Env) (f : String → List String → Except DataError Unit × List TOp)
    (x : String) (rest done : List String) (h : x ∈ done) :
    runLoop env f (x :: rest) done = runLoop env f rest done := by
  simp [runLoop, h]

lemma runLoop_cons_invalid (env : Env) (f : String → List String → Except DataError Unit × List TOp)
    (x : String) (rest done : List String) (h1 : x ∉ done)
    (h2 : isHash x = false) :
    runLoop env f (x :: rest) done
      = (Except.error (DataError.invalidHash x), []) := by
  simp [runLoop, h1, h2]

lemma runLoop_cons_nopaths (env : Env) (f : String → List String → Except DataError Unit × List TOp)
    (x : String) (rest done : List String) (h1 : x ∉ done)
    (h2 : isHash x = true) (h3 : env.manifest x = []) :
    runLoop env f (x :: rest) done
      = (Except.error (DataError.notFound x), []) := by
  simp [runLoop, h1, h2, blobPaths, h3]

lemma runLoop_cons_ferr (env : Env) (f : String → List String → Except DataError Unit × List TOp)
    (x : String) (rest done : List String) (h1 : x ∉ done)
    (h2 : isHash x = true) (hne : env.manifest x ≠ [])
    (e : DataError) (hf : (f x (env.manifest x)).1 = Except.error e) :
    runLoop env f (x :: rest) done
      = (Except.error e,
         Ev.invoke x (env.manifest x) :: (f x (env.manifest x)).2.map Ev.op) := by
  simp [runLoop, h1, h2, blobPaths_ok env x hne, hf]

lemma runLoop_cons_fok (env : Env) (f : String → List String → Except DataError Unit × List TOp)
    (x : String) (rest done : List String) (h1 : x ∉ done)
    (h2 : isHash x = true) (hne : env.manifest x ≠ [])
    (hf : (f x (env.manifest x)).1 = Except.ok ()) :
    runLoop env f (x :: rest) done
      = ((runLoop env f rest (x :: done)).1,
         (Ev.invoke x (env.manifest x) :: (f x (env.manifest x)).2.map Ev.op)
           ++ (runLoop env f rest (x :: done)).2) := by
  simp [runLoop, h1, h2, blobPaths_ok env x hne, hf]

/-- C1 counterexample: in the batch of the valid `hashA` followed by the
invalid `hashG`, the store upload for `hashA` is performed before the batch
aborts on `hashG`, so validation is not all-or-nothing at batch start. -/
theorem validation_not_batch_atomic_cex :
    Ev.op (TOp.storePut hashA "fileA")
      ∈ (blobCmdRunFunc envA (Except.ok ()) (putF envA) [hashA, hashG]).2
    ∧ isHash hashG = false
    ∧ (blobCmdRunFunc envA (Except.ok ()) (putF envA) [hashA, hashG]).1
        = Except.error (DataError.invalidHash hashG) := by
  exact ⟨by decide, by decide, rfl⟩

lemma runLoop_ne_ok (env : Env) (f : String → List String → Except DataError Unit × List TOp)
    (bad : String) (hinv : isHash bad = false) :
    ∀ (l done : List String), bad ∈ l → (∀ h ∈ done, isHash h = true) →
      (runLoop env f l done).1 ≠ Except.ok () := by
  intro l
  induction l with
  | nil => intro done hmem; simp at hmem
  | cons x rest ih =>
    intro done hmem hdone
    by_cases hc : x ∈ done
    · rw [runLoop_cons_skip env f x rest done hc]
      have hx : isHash x = true := hdone x hc
      have hbr : bad ∈ rest := by
        rcases List.mem_cons.mp hmem with rfl | h
        · rw [hinv] at hx; cases hx
        · exact h
      exact ih done hbr hdone
    · have hc2 : x ∉ done := hc
      by_cases hv : isHash x = true
      · rcases hm : env.manifest x with _ | ⟨p, ps⟩
        · rw [runLoop_cons_nopaths env f x rest done hc2 hv hm]
          simp
        · have hne : env.manifest x ≠ [] := by rw [hm]; simp
          cases hf : (f x (env.manifest x)).1 with
          | error e =>
            rw [runLoop_cons_ferr env f x rest done hc2 hv hne e hf]
            simp
          | ok u =>
            rw [runLoop_cons_fok env f x rest done hc2 hv hne (by rw [hf])]
            have hbr : bad ∈ rest := by
              rcases List.mem_cons.mp hmem with rfl | h
              · rw [hinv] at hv; cases hv
              · exact h
            exact ih (x :: done)
              (by simpa using hbr)
              (fun h hh => by
                rcases List.mem_cons.mp hh with rfl | h2
                · exact hv
                · exact hdone h h2)
      · rw [runLoop_cons_invalid env f x rest done hc2 (by simpa using hv)]
        simp

lemma runLoop_invokes (env : Env) (f : String → List String → Except DataError Unit × List TOp) :
    ∀ (l done : List String), (∀ h ∈ done, isHash h = true) →
      ∀ h ps, Ev.invoke h ps ∈ (runLoop env f l done).2 →
        isHash h = true ∧ h ∈ l.takeWhile (fun x => isHash x) := by
  intro l
  induction l with
  | nil => intro done hdone h ps hm; simp [runLoop] at hm
  | cons x rest ih =>
    intro done hdone h ps hm
    by_cases hc : x ∈ done
    · rw [runLoop_cons_skip env f x rest done hc] at hm
      have hx : isHash x = true := hdone x hc
      obtain ⟨hh, hmem⟩ := ih done hdone h ps hm
      refine ⟨hh, ?_⟩
      rw [List.takeWhile_cons, if_pos hx]
      exact List.mem_cons.mpr (Or.inr hmem)
    · have hc2 : x ∉ done := hc
      by_cases hv : isHash x = true
      · rcases hmx : env.manifest x with _ | ⟨p, ps'⟩
        · rw [runLoop_cons_nopaths env f x rest done hc2 hv hmx] at hm
          simp at hm
        · have hne : env.manifest x ≠ [] := by rw [hmx]; simp
          cases hf : (f x (env.manifest x)).1 with
          | error e =>
            rw [runLoop_cons_ferr env f x rest done hc2 hv hne e hf] at hm
            rcases List.mem_cons.mp hm with heq | hops
            · obtain ⟨rfl, rfl⟩ : h = x ∧ ps = env.manifest x := by
                injection heq with a b; exact ⟨a, b⟩
              refine ⟨hv, ?_⟩
              rw [List.takeWhile_cons, if_pos hv]
              exact List.mem_cons.mpr (Or.inl rfl)
            · obtain ⟨t, _, ht⟩ := List.mem_map.mp hops
              cases ht
          | ok u =>
            rw [runLoop_cons_fok env f x rest done hc2 hv hne (by rw [hf])] at hm
            rcases List.mem_append.mp hm with hhead | hrec
            · rcases List.mem_cons.mp hhead with heq | hops
              · obtain ⟨rfl, rfl⟩ : h = x ∧ ps = env.manifest x := by
                  injection heq with a b; exact ⟨a, b⟩
                refine ⟨hv, ?_⟩
                rw [List.takeWhile_cons, if_pos hv]
                exact List.mem_cons.mpr (Or.inl rfl)
              · obtain ⟨t, _, ht⟩ := List.mem_map.mp hops
                cases ht
            · obtain ⟨hh, hmem⟩ := ih (x :: done)
                (fun y hy => by
                  rcases List.mem_cons.mp hy with rfl | h2
                  · exact hv
                  · exact hdone y h2) h ps hrec
              refine ⟨hh, ?_⟩
              rw [List.takeWhile_cons, if_pos hv]
              exact List.mem_cons.mpr (Or.inr hmem)
      · rw [runLoop_cons_invalid env f x rest done hc2 (by simpa using hv)] at hm
        simp at hm

/-- C1 amended: validation is per item, not all-or-nothing at batch start: a
batch containing an invalid hash never succeeds, and the per-hash transfer
function is only ever invoked on valid hashes lying strictly before the first
invalid entry — transfers of those earlier valid hashes may already have been
performed when the batch aborts. -/
theorem validation_per_item (env : Env) (idx : Except String Unit)
    (f : String → List String → Except DataError Unit × List TOp)
    (hashes : List String) (bad : String)
    (hmem : bad ∈ hashes) (hinv : isHash bad = false) :
    (blobCmdRunFunc env idx f hashes).1 ≠ Except.ok ()
    ∧ ∀ h ps, Ev.invoke h ps ∈ (blobCmdRunFunc env idx f hashes).2 →
        isHash h = true ∧ h ∈ hashes.takeWhile (fun x => isHash x) := by
  have hlen : ¬ hashes.length < 1 := by
    have := List.length_pos.mpr (List.ne_nil_of_mem hmem)
    omega
  cases idx with
  | error e =>
    constructor
    · simp [blobCmdRunFunc, hlen]
    · intro h ps hm
      simp [blobCmdRunFunc, hlen] at hm
  | ok u =>
    constructor
    · rw [show blobCmdRunFunc env (Except.ok u) f hashes
            = runLoop env f hashes [] by simp [blobCmdRunFunc, hlen]]
      exact runLoop_ne_ok env f bad hinv hashes [] hmem (by simp)
    · intro h ps hm
      rw [show blobCmdRunFunc env (Except.ok u) f hashes
            = runLoop env f hashes [] by simp [blobCmdRunFunc, hlen]] at hm
      exact runLoop_invokes env f hashes [] (by simp) h ps hm

/-- Witness for the amended C1 on the singleton batch of the invalid
`hashG`. -/
theorem validation_per_item_witness :
    hashG ∈ [hashG] ∧ isHash hashG = false
    ∧ ((blobCmdRunFunc envA (Except.ok ()) (putF envA) [hashG]).1 ≠ Except.ok ()
       ∧ ∀ h ps,
           Ev.invoke h ps ∈ (blobCmdRunFunc envA (Except.ok ()) (putF envA) [hashG]).2 →
             isHash h = true ∧ h ∈ [hashG].takeWhile (fun x => isHash x)) :=
  ⟨by decide, by decide,
   validation_per_item envA (Except.ok ()) (putF envA) [hashG] hashG
     (by decide) (by decide)⟩

/-- Test whether an event is an invocation of the per-hash transfer function
for the hash `H`. -/
def isInvokeOf (H : String) : Ev → Bool
  | Ev.invoke h _ => h == H
  | _ => false

/-- Test whether an event is a store put or get keyed by the hash `H`. -/
def isStoreOpOf (H : String) : Ev → Bool
  | Ev.op (TOp.storeGet h _) => h == H
  | Ev.op (TOp.storePut h _) => h == H
  | _ => false

/-- Number of invocations of the transfer function for `H` in a trace. -/
def invokesOf (H : String) (evs : List Ev) : Nat :=
  (evs.filter (isInvokeOf H)).length

/-- Number of store operations keyed by `H` in a trace. -/
def storeOpsOf (H : String) (evs : List Ev) : Nat :=
  (evs.filter (isStoreOpOf H)).length

lemma invokesOf_append (H : String) (a b : List Ev) :
    invokesOf H (a ++ b) = invokesOf H a + invokesOf H b := by
  simp [invokesOf, List.filter_append]

lemma storeOpsOf_append (H : String) (a b : List Ev) :
    storeOpsOf H (a ++ b) = storeOpsOf H a + storeOpsOf H b := by
  simp [storeOpsOf, List.filter_append]

lemma invokesOf_cons_invoke (H h : String) (ps : List String) (t : List Ev) :
    invokesOf H (Ev.invoke h ps :: t)
      = (if h = H then 1 else 0) + invokesOf H t := by
  by_cases hh : h = H
  · simp [invokesOf, List.filter_cons, isInvokeOf, hh, Nat.add_comm]
  · simp [invokesOf, List.filter_cons, isInvokeOf, hh]

lemma storeOpsOf_cons_invoke (H h : String) (ps : List String) (t : List Ev) :
    storeOpsOf H (Ev.invoke h ps :: t) = storeOpsOf H t := by
  simp [storeOpsOf, List.filter_cons, isStoreOpOf]

lemma invokesOf_map_op (H : String) (ops : List TOp) :
    invokesOf H (ops.map Ev.op) = 0 := by
  induction ops with
  | nil => simp [invokesOf]
  | cons t rest ih => simp [invokesOf, List.filter_cons, isInvokeOf] at ih ⊢

lemma runLoop_invokesOf_le (env : Env)
    (f : String → List String → Except DataError Unit × List TOp) (H : String) :
    ∀ (l done : List String),
      invokesOf H (runLoop env f l done).2 ≤ if H ∈ done then 0 else 1 := by
  intro l
  induction l with
  | nil => intro done; simp [runLoop, invokesOf]
  | cons x rest ih =>
    intro done
    by_cases hc : x ∈ done
    · rw [runLoop_cons_skip env f x rest done hc]; exact ih done
    · by_cases hv : isHash x = true
      · rcases hmx : env.manifest x with _ | ⟨p, ps'⟩
        · rw [runLoop_cons_nopaths env f x rest done hc hv hmx]
          simp [invokesOf]
        · have hne : env.manifest x ≠ [] := by rw [hmx]; simp
          cases hf : (f x (env.manifest x)).1 with
          | error e =>
            rw [runLoop_cons_ferr env f x rest done hc hv hne e hf]
            rw [invokesOf_cons_invoke, invokesOf_map_op]
            by_cases hxH : x = H
            · subst hxH; simp [hc]
            · simp [hxH]
          | ok u =>
            rw [runLoop_cons_fok env f x rest done hc hv hne (by rw [hf])]
            rw [List.cons_append, invokesOf_cons_invoke, invokesOf_append,
              invokesOf_map_op]
            by_cases hxH : x = H
            · subst hxH
              have hrec := ih (x :: done)
              rw [if_pos (List.mem_cons_self x done)] at hrec
              simp [hc]
              omega
            · have hrec := ih (x :: done)
              by_cases hHd : H ∈ done
              · rw [if_pos (List.mem_cons.mpr (Or.inr hHd))] at hrec
                rw [if_pos hHd]
                simpa [hxH] using hrec
              · rw [if_neg (by
                  rw [List.mem_cons]
                  rintro (rfl | h2)
                  · exact hxH rfl
                  · exact hHd h2)] at hrec
                rw [if_neg hHd]
                simpa [hxH] using hrec
      · rw [runLoop_cons_invalid env f x rest done hc (by simpa using hv)]
        simp [invokesOf]

lemma runLoop_storeOpsOf_le (env : Env)
    (f : String → List String → Except DataError Unit × List TOp) (H : String)
    (hf : ∀ h ps, storeOpsOf H ((f h ps).2.map Ev.op) ≤ 1
          ∧ (h ≠ H → storeOpsOf H ((f h ps).2.map Ev.op) = 0)) :
    ∀ (l done : List String),
      storeOpsOf H (runLoop env f l done).2 ≤ if H ∈ done then 0 else 1 := by
  intro l
  induction l with
  | nil => intro done; simp [runLoop, storeOpsOf]
  | cons x rest ih =>
    intro done
    by_cases hc : x ∈ done
    · rw [runLoop_cons_skip env f x rest done hc]; exact ih done
    · by_cases hv : isHash x = true
      · rcases hmx : env.manifest x with _ | ⟨p, ps'⟩
        · rw [runLoop_cons_nopaths env f x rest done hc hv hmx]
          simp [storeOpsOf]
        · have hne : env.manifest x ≠ [] := by rw [hmx]; simp
          cases hfr : (f x (env.manifest x)).1 with
          | error e =>
            rw [runLoop_cons_ferr env f x rest done hc hv hne e hfr]
            rw [storeOpsOf_cons_invoke]
            by_cases hxH : x = H
            · subst hxH; simpa [hc] using (hf x (env.manifest x)).1
            · simp [(hf x (env.manifest x)).2 hxH]
          | ok u =>
            rw [runLoop_cons_fok env f x rest done hc hv hne (by rw [hfr])]
            rw [List.cons_append, storeOpsOf_cons_invoke, storeOpsOf_append]
            by_cases hxH : x = H
            · subst hxH
              have hrec := ih (x :: done)
              rw [if_pos (List.mem_cons_self x done)] at hrec
              have hops := (hf x (env.manifest x)).1
              simp [hc]
              omega
            · have hops := (hf x (env.manifest x)).2 hxH
              have hrec := ih (x :: done)
              rw [hops]
              by_cases hHd : H ∈ done
              · rw [if_pos (List.mem_cons.mpr (Or.inr hHd))] at hrec
                rw [if_pos hHd]
                simpa using hrec
              · rw [if_neg (by
                  rw [List.mem_cons]
                  rintro (rfl | h2)
                  · exact hxH rfl
                  · exact hHd h2)] at hrec
                rw [if_neg hHd]
                simpa using hrec
      · rw [runLoop_cons_invalid env f x rest done hc (by simpa using hv)]
        simp [storeOpsOf]

lemma putF_ops (env : Env) (h p : String) (rest : List String) :
    (putF env h (p :: rest)).2 = [TOp.storePut h p] := by
  cases hr : env.putRes h p <;> simp [putF, hr]

lemma storeOpsOf_single_put (H h p : String) :
    storeOpsOf H [Ev.op (TOp.storePut h p)] = if h = H then 1 else 0 := by
  by_cases hh : h = H <;> simp [storeOpsOf, List.filter_cons, isStoreOpOf, hh]

lemma storeOpsOf_cons_get (H h p : String) (t : List Ev) :
    storeOpsOf H (Ev.op (TOp.storeGet h p) :: t)
      = (if h = H then 1 else 0) + storeOpsOf H t := by
  by_cases hh : h = H
  · simp [storeOpsOf, List.filter_cons, isStoreOpOf, hh, Nat.add_comm]
  · simp [storeOpsOf, List.filter_cons, isStoreOpOf, hh]

lemma putF_storeOps (env : Env) (H h : String) (ps : List String) :
    storeOpsOf H ((putF env h ps).2.map Ev.op) ≤ 1
    ∧ (h ≠ H → storeOpsOf H ((putF env h ps).2.map Ev.op) = 0) := by
  rcases ps with _ | ⟨p, rest⟩
  · simp [putF, storeOpsOf]
  · rw [putF_ops env h p rest,
      show List.map Ev.op [TOp.storePut h p] = [Ev.op (TOp.storePut h p)] from rfl,
      storeOpsOf_single_put]
    constructor
    · split <;> omega
    · intro hh
      simp [hh]

lemma copyLoop_storeOps (env : Env) (H src : String) (l : List String) :
    storeOpsOf H ((copyLoop env src l).2.map Ev.op) = 0 := by
  induction l with
  | nil => simp [copyLoop, storeOpsOf]
  | cons p rest ih =>
    cases hr : env.copyRes src p with
    | error e => simp [copyLoop, hr, storeOpsOf, List.filter_cons, isStoreOpOf]
    | ok u =>
      simpa [copyLoop, hr, storeOpsOf, List.filter_cons, isStoreOpOf] using ih

lemma getF_storeOps (env : Env) (H h : String) (ps : List String) :
    storeOpsOf H ((getF env h ps).2.map Ev.op) ≤ 1
    ∧ (h ≠ H → storeOpsOf H ((getF env h ps).2.map Ev.op) = 0) := by
  rcases ps with _ | ⟨p, rest⟩
  · simp [getF, storeOpsOf]
  · cases hr : env.getRes h p with
    | error e =>
      rw [show (getF env h (p :: rest)).2 = [TOp.storeGet h p] by simp [getF, hr],
        show List.map Ev.op [TOp.storeGet h p] = [Ev.op (TOp.storeGet h p)] from rfl,
        show storeOpsOf H [Ev.op (TOp.storeGet h p)]
          = (if h = H then 1 else 0) + storeOpsOf H ([] : List Ev) from
            storeOpsOf_cons_get H h p []]
      constructor
      · simp [storeOpsOf]
        split <;> omega
      · intro hh
        simp [storeOpsOf, hh]
    | ok u =>
      have hcl := copyLoop_storeOps env H p rest
      rw [show (getF env h (p :: rest)).2 = TOp.storeGet h p :: (copyLoop env p rest).2
          by simp [getF, hr],
        List.map_cons, storeOpsOf_cons_get, hcl]
      constructor
      · split <;> omega
      · intro hh
        simp [hh]

lemma blobCmdRunFunc_trace_cases (env : Env) (idx : Except String Unit)
    (f : String → List String → Except DataError Unit × List TOp)
    (hashes : List String) :
    (blobCmdRunFunc env idx f hashes).2 = []
    ∨ (blobCmdRunFunc env idx f hashes).2 = (runLoop env f hashes []).2 := by
  by_cases hl : hashes.length < 1
  · exact Or.inl (by simp [blobCmdRunFunc, hl])
  · cases idx with
    | error e => exact Or.inl (by simp [blobCmdRunFunc, hl])
    | ok u => exact Or.inr (by simp [blobCmdRunFunc, hl])

/-- C2: in any batch run, the per-hash transfer function is invoked at most
once per hash (later duplicates are skipped via the seen-set), and under the
concrete put and get transfer functions at most one store operation is
performed per hash. -/
theorem dedup_at_most_once :
    ∀ (env : Env) (idx : Except String Unit)
      (f : String → List String → Except DataError Unit × List TOp)
      (hashes : List String) (H : String),
      invokesOf H (blobCmdRunFunc env idx f hashes).2 ≤ 1
      ∧ storeOpsOf H (blobCmdRunFunc env idx (putF env) hashes).2 ≤ 1
      ∧ storeOpsOf H (blobCmdRunFunc env idx (getF env) hashes).2 ≤ 1 := by
  intro env idx f hashes H
  refine ⟨?_, ?_, ?_⟩
  · rcases blobCmdRunFunc_trace_cases env idx f hashes with h | h
    · simp [h, invokesOf]
    · rw [h]
      have := runLoop_invokesOf_le env f H hashes []
      simpa using this
  · rcases blobCmdRunFunc_trace_cases env idx (putF env) hashes with h | h
    · simp [h, storeOpsOf]
    · rw [h]
      have := runLoop_storeOpsOf_le env (putF env) H
        (fun h ps => putF_storeOps env H h ps) hashes []
      simpa using this
  · rcases blobCmdRunFunc_trace_cases env idx (getF env) hashes with h | h
    · simp [h, storeOpsOf]
    · rw [h]
      have := runLoop_storeOpsOf_le env (getF env) H
        (fun h ps => getF_storeOps env H h ps) hashes []
      simpa using this

/-- Total number of store get operations in a trace, over all hashes. -/
def storeGetsAll (evs : List Ev) : Nat :=
  (evs.filter (fun e => match e with
    | Ev.op (TOp.storeGet _ _) => true
    | _ => false)).length

/-- Total number of local file copies in a trace. -/
def copiesAll (evs : List Ev) : Nat :=
  (evs.filter (fun e => match e with
    | Ev.op (TOp.copyFile _ _) => true
    | _ => false)).length

lemma copyLoop_all_ok (env : Env) (src : String) (l : List String)
    (h : ∀ q ∈ l, env.copyRes src q = Except.ok ()) :
    copyLoop env src l = (Except.ok (), l.map (fun q => TOp.copyFile src q)) := by
  induction l with
  | nil => rfl
  | cons p rest ih =>
    have hp : env.copyRes src p = Except.ok () := h p (by simp)
    have hrest := ih (fun q hq => h q (by simp [hq]))
    simp [copyLoop, hp, hrest]

/-- C4: a get request for a hash tracked at paths `p0 :: rest` performs
exactly one store get (into `p0`), then one local copy of `p0` per additional
path, and no further store fetch: the whole trace is the single fetch
followed by the copies. -/
theorem get_single_fetch_then_copies (env : Env) (H p0 : String)
    (rest : List String)
    (hv : isHash H = true)
    (hm : env.manifest H = p0 :: rest)
    (hg : env.getRes H p0 = Except.ok ())
    (hc : ∀ q ∈ rest, env.copyRes p0 q = Except.ok ()) :
    blobCmdRunFunc env (Except.ok ()) (getF env) [H]
      = (Except.ok (),
         Ev.invoke H (p0 :: rest) :: Ev.op (TOp.storeGet H p0)
           :: rest.map (fun q => Ev.op (TOp.copyFile p0 q)))
    ∧ storeGetsAll (blobCmdRunFunc env (Except.ok ()) (getF env) [H]).2 = 1
    ∧ copiesAll (blobCmdRunFunc env (Except.ok ()) (getF env) [H]).2
        = rest.length := by
  have hgf : getF env H (env.manifest H)
      = (Except.ok (), TOp.storeGet H p0 :: rest.map (fun q => TOp.copyFile p0 q)) := by
    rw [hm]
    simp [getF, hg, copyLoop_all_ok env p0 rest hc]
  have hne : env.manifest H ≠ [] := by rw [hm]; simp
  have hrun : blobCmdRunFunc env (Except.ok ()) (getF env) [H]
      = (Except.ok (),
         Ev.invoke H (p0 :: rest) :: Ev.op (TOp.storeGet H p0)
           :: rest.map (fun q => Ev.op (TOp.copyFile p0 q))) := by
    rw [show blobCmdRunFunc env (Except.ok ()) (getF env) [H]
          = runLoop env (getF env) [H] [] by simp [blobCmdRunFunc]]
    rw [runLoop_cons_fok env (getF env) H [] [] (by simp) hv hne (by rw [hgf])]
    rw [show runLoop env (getF env) [] [H] = (Except.ok (), []) from rfl]
    rw [hgf, hm]
    simp [List.map_map, Function.comp]
  refine ⟨hrun, ?_, ?_⟩
  · rw [hrun]
    simp only [storeGetsAll, List.filter_cons]
    simp [List.filter_map, Function.comp]
  · rw [hrun]
    simp only [copiesAll, List.filter_cons]
    simp [List.filter_map, Function.comp]

/-- Environment for the end-to-end get scenario: `hashA` is tracked at two
paths and every operation succeeds. -/
def envG : Env where
  manifest := fun h => if h == hashA then ["fileA", "fileB"] else []
  putRes := fun _ _ => Except.ok ()
  getRes := fun _ _ => Except.ok ()
  copyRes := fun _ _ => Except.ok ()

/-- Witness for C4: with a manifest tracking `hashA` at two paths, the get
batch for `hashA` does one store fetch and one local copy. -/
theorem get_single_fetch_then_copies_witness :
    isHash hashA = true
    ∧ envG.manifest hashA = "fileA" :: ["fileB"]
    ∧ envG.getRes hashA "fileA" = Except.ok ()
    ∧ (∀ q ∈ ["fileB"], envG.copyRes "fileA" q = Except.ok ())
    ∧ (blobCmdRunFunc envG (Except.ok ()) (getF envG) [hashA]
        = (Except.ok (),
           Ev.invoke hashA ("fileA" :: ["fileB"]) :: Ev.op (TOp.storeGet hashA "fileA")
             :: ["fileB"].map (fun q => Ev.op (TOp.copyFile "fileA" q)))
       ∧ storeGetsAll (blobCmdRunFunc envG (Except.ok ()) (getF envG) [hashA]).2 = 1
       ∧ copiesAll (blobCmdRunFunc envG (Except.ok ()) (getF envG) [hashA]).2
           = ["fileB"].length) :=
  ⟨by decide, by decide, rfl, fun q _ => rfl,
   get_single_fetch_then_copies envG hashA "fileA" ["fileB"]
     (by decide) (by decide) rfl (fun q _ => rfl)⟩

lemma runLoop_notFound (env : Env)
    (f : String → List String → Except DataError Unit × List TOp) (H : String)
    (hv : isHash H = true) (hm : env.manifest H = [])
    (hf : ∀ h ps, h ≠ H → storeOpsOf H ((f h ps).2.map Ev.op) = 0) :
    ∀ (l done : List String), H ∈ l → H ∉ done →
      (∀ h ∈ l, h ≠ H →
        isHash h = true ∧ env.manifest h ≠ []
          ∧ (f h (env.manifest h)).1 = Except.ok ()) →
      (runLoop env f l done).1 = Except.error (DataError.notFound H)
      ∧ storeOpsOf H (runLoop env f l done).2 = 0 := by
  intro l
  induction l with
  | nil => intro done hmem; simp at hmem
  | cons x rest ih =>
    intro done hmem hnd hoth
    by_cases hxH : x = H
    · subst hxH
      rw [runLoop_cons_nopaths env f x rest done hnd hv hm]
      simp [storeOpsOf]
    · have hHrest : H ∈ rest := by
        rcases List.mem_cons.mp hmem with heq | h2
        · exact absurd heq.symm hxH
        · exact h2
      by_cases hc : x ∈ done
      · rw [runLoop_cons_skip env f x rest done hc]
        exact ih done hHrest hnd (fun h hh => hoth h (by simp [hh]))
      · have hx := hoth x (by simp) hxH
        rw [runLoop_cons_fok env f x rest done hc hx.1 hx.2.1 hx.2.2]
        have hrec := ih (x :: done) hHrest
          (by
            rw [List.mem_cons]
            rintro (rfl | h2)
            · exact hxH rfl
            · exact hnd h2)
          (fun h hh => hoth h (by simp [hh]))
        refine ⟨hrec.1, ?_⟩
        rw [List.cons_append, storeOpsOf_cons_invoke, storeOpsOf_append,
          hf x (env.manifest x) hxH, hrec.2]

/-- C5: a batch containing a syntactically valid hash `H` with no manifest
entry aborts with the not-found error for `H` (provided the other hashes of
the batch are themselves unproblematic) and performs zero store operations
keyed by `H`. -/
theorem unknown_hash_not_found (env : Env)
    (f : String → List String → Except DataError Unit × List TOp)
    (hashes : List String) (H : String)
    (hv : isHash H = true) (hm : env.manifest H = [])
    (hmem : H ∈ hashes)
    (hothers : ∀ h ∈ hashes, h ≠ H →
      isHash h = true ∧ env.manifest h ≠ []
        ∧ (f h (env.manifest h)).1 = Except.ok ())
    (hf : ∀ h ps, h ≠ H → storeOpsOf H ((f h ps).2.map Ev.op) = 0) :
    (blobCmdRunFunc env (Except.ok ()) f hashes).1
      = Except.error (DataError.notFound H)
    ∧ storeOpsOf H (blobCmdRunFunc env (Except.ok ()) f hashes).2 = 0 := by
  have hlen : ¬ hashes.length < 1 := by
    have := List.length_pos.mpr (List.ne_nil_of_mem hmem)
    omega
  rw [show blobCmdRunFunc env (Except.ok ()) f hashes
        = runLoop env f hashes [] by simp [blobCmdRunFunc, hlen]]
  exact runLoop_notFound env f H hv hm hf hashes [] hmem (by simp) hothers

/-- Environment whose manifest tracks nothing at all. -/
def envEmpty : Env where
  manifest := fun _ => []
  putRes := fun _ _ => Except.ok ()
  getRes := fun _ _ => Except.ok ()
  copyRes := fun _ _ => Except.ok ()

/-- Witness for C5: the put batch for the valid but untracked `hashA` fails
with the not-found error and performs no store operation for it. -/
theorem unknown_hash_not_found_witness :
    isHash hashA = true
    ∧ envEmpty.manifest hashA = []
    ∧ hashA ∈ [hashA]
    ∧ (∀ h ∈ [hashA], h ≠ hashA →
        isHash h = true ∧ envEmpty.manifest h ≠ []
          ∧ (putF envEmpty h (envEmpty.manifest h)).1 = Except.ok ())
    ∧ (∀ h ps, h ≠ hashA →
        storeOpsOf hashA ((putF envEmpty h ps).2.map Ev.op) = 0)
    ∧ ((blobCmdRunFunc envEmpty (Except.ok ()) (putF envEmpty) [hashA]).1
        = Except.error (DataError.notFound hashA)
       ∧ storeOpsOf hashA
           (blobCmdRunFunc envEmpty (Except.ok ()) (putF envEmpty) [hashA]).2 = 0) :=
  ⟨by decide, rfl, by decide,
   fun h hh hne => absurd (by simpa using hh) hne,
   fun h ps hne => (putF_storeOps envEmpty hashA h ps).2 hne,
   unknown_hash_not_found envEmpty (putF envEmpty) [hashA] hashA
     (by decide) rfl (by decide)
     (fun h hh hne => absurd (by simpa using hh) hne)
     (fun h ps hne => (putF_storeOps envEmpty hashA h ps).2 hne)⟩

/-- Environment where the store upload always fails with the same message
and `hashA` is tracked at path p1. -/
def envFail1 : Env where
  manifest := fun h => if h == hashA then ["p1"] else []
  putRes := fun _ _ => Except.error "disk full"
  getRes := fun _ _ => Except.ok ()
  copyRes := fun _ _ => Except.ok ()

/-- Environment where the store upload always fails with the same message
and `hashB` is tracked at path p2. -/
def envFail2 : Env where
  manifest := fun h => if h == hashB then ["p2"] else []
  putRes := fun _ _ => Except.error "disk full"
  getRes := fun _ _ => Except.ok ()
  copyRes := fun _ _ => Except.ok ()

/-- C6 counterexample: two failing put batches for different hashes at
different paths return the very same error value, so the error returned by
the batch runner does not carry the offending hash or path: it is the
underlying transfer error unchanged. -/
theorem abort_error_lacks_context_cex :
    (blobCmdRunFunc envFail1 (Except.ok ()) (putF envFail1) [hashA]).1
      = (blobCmdRunFunc envFail2 (Except.ok ()) (putF envFail2) [hashB]).1
    ∧ hashA ≠ hashB
    ∧ (blobCmdRunFunc envFail1 (Except.ok ()) (putF envFail1) [hashA]).1
        = Except.error (DataError.storeErr "disk full") :=
  ⟨rfl, by decide, rfl⟩

lemma runLoop_abort (env : Env)
    (f : String → List String → Except DataError Unit × List TOp)
    (bad : String) (e : DataError)
    (hbv : isHash bad = true) (hbm : env.manifest bad ≠ [])
    (hbf : (f bad (env.manifest bad)).1 = Except.error e) :
    ∀ (pre post done : List String),
      (∀ h ∈ pre, isHash h = true ∧ env.manifest h ≠ []
        ∧ (f h (env.manifest h)).1 = Except.ok ()) →
      (pre ++ [bad]).Nodup →
      (∀ h ∈ pre ++ [bad], h ∉ done) →
      runLoop env f (pre ++ bad :: post) done
        = (Except.error e,
           (pre.map (fun h => Ev.invoke h (env.manifest h)
             :: ((f h (env.manifest h)).2.map Ev.op))).flatten
             ++ (Ev.invoke bad (env.manifest bad)
                  :: ((f bad (env.manifest bad)).2.map Ev.op))) := by
  intro pre
  induction pre with
  | nil =>
    intro post done _ _ hdj
    have hnd : bad ∉ done := hdj bad (by simp)
    rw [List.nil_append]
    rw [runLoop_cons_ferr env f bad post done hnd hbv hbm e hbf]
    simp
  | cons x pre' ih =>
    intro post done hpre hnodup hdj
    have hx := hpre x (by simp)
    have hxd : x ∉ done := hdj x (by simp)
    have hnotin : x ∉ pre' ++ [bad] := (List.nodup_cons.mp (by simpa using hnodup)).1
    rw [List.cons_append]
    rw [runLoop_cons_fok env f x (pre' ++ bad :: post) done hxd hx.1 hx.2.1 hx.2.2]
    rw [ih post (x :: done)
      (fun h hh => hpre h (by simp [hh]))
      ((List.nodup_cons.mp (by simpa using hnodup)).2)
      (fun h hh => by
        rw [List.mem_cons]
        rintro (rfl | h2)
        · exact hnotin hh
        · exact hdj h (by simp [hh]) h2)]
    simp

/-- C6 amended: when the transfer of a hash fails, the batch stops
immediately with the underlying transfer error returned unchanged (the
offending hash and path are printed to standard output before each attempt,
not attached to the error), no transfer is attempted for any later hash, and
the transfers completed before the failure remain in the trace (no
rollback). -/
theorem abort_on_first_error_amended (env : Env)
    (f : String → List String → Except DataError Unit × List TOp)
    (pre : List String) (bad : String) (post : List String) (e : DataError)
    (hpre : ∀ h ∈ pre, isHash h = true ∧ env.manifest h ≠ []
      ∧ (f h (env.manifest h)).1 = Except.ok ())
    (hnodup : (pre ++ [bad]).Nodup)
    (hbv : isHash bad = true) (hbm : env.manifest bad ≠ [])
    (hbf : (f bad (env.manifest bad)).1 = Except.error e) :
    blobCmdRunFunc env (Except.ok ()) f (pre ++ bad :: post)
      = (Except.error e,
         (pre.map (fun h => Ev.invoke h (env.manifest h)
           :: ((f h (env.manifest h)).2.map Ev.op))).flatten
           ++ (Ev.invoke bad (env.manifest bad)
                :: ((f bad (env.manifest bad)).2.map Ev.op))) := by
  have hlen : ¬ (pre ++ bad :: post).length < 1 := by simp
  rw [show blobCmdRunFunc env (Except.ok ()) f (pre ++ bad :: post)
        = runLoop env f (pre ++ bad :: post) [] by simp [blobCmdRunFunc, hlen]]
  exact runLoop_abort env f bad e hbv hbm hbf pre post []
    hpre hnodup (fun h _ => List.not_mem_nil h)

/-- Witness for the amended C6: the failing put batch for `hashA` alone
returns the store error unchanged with the single attempted transfer in the
trace. -/
theorem abort_on_first_error_amended_witness :
    (∀ h ∈ ([] : List String), isHash h = true ∧ envFail1.manifest h ≠ []
      ∧ (putF envFail1 h (envFail1.manifest h)).1 = Except.ok ())
    ∧ (([] ++ [hashA]) : List String).Nodup
    ∧ isHash hashA = true
    ∧ envFail1.manifest hashA ≠ []
    ∧ (putF envFail1 hashA (envFail1.manifest hashA)).1
        = Except.error (DataError.storeErr "disk full")
    ∧ blobCmdRunFunc envFail1 (Except.ok ()) (putF envFail1) ([] ++ hashA :: [])
        = (Except.error (DataError.storeErr "disk full"),
           (([] : List String).map (fun h => Ev.invoke h (envFail1.manifest h)
             :: ((putF envFail1 h (envFail1.manifest h)).2.map Ev.op))).flatten
             ++ (Ev.invoke hashA (envFail1.manifest hashA)
                  :: ((putF envFail1 hashA (envFail1.manifest hashA)).2.map Ev.op))) :=
  ⟨fun h hh => absurd hh (List.not_mem_nil h), by simp, by decide, by decide, rfl,
   abort_on_first_error_amended envFail1 (putF envFail1) [] hashA []
     (DataError.storeErr "disk full")
     (fun h hh => absurd hh (List.not_mem_nil h)) (by simp) (by decide)
     (by decide) rfl⟩

/-- Reduction modulo 2 to the 32, the word size of SHA-1 arithmetic. -/
def m32 (x : Nat) : Nat := x % 4294967296

/-- 32-bit left rotation by s of a value below 2 to the 32. -/
def rotl (s x : Nat) : Nat := (x * 2 ^ s + x / 2 ^ (32 - s)) % 4294967296

/-- 32-bit complement. -/
def w32not (x : Nat) : Nat := Nat.xor x 4294967295

/-- Modelled from the spec: the SHA-1 round function (the spec names SHA-1 as
the hash; `crypto/sha1` is a library outside the analysed sources). -/
def sha1F (t b c d : Nat) : Nat :=
  if t < 20 then Nat.lor (Nat.land b c) (Nat.land (w32not b) d)
  else if t < 40 then Nat.xor (Nat.xor b c) d
  else if t < 60 then Nat.lor (Nat.lor (Nat.land b c) (Nat.land b d)) (Nat.land c d)
  else Nat.xor (Nat.xor b c) d

/-- Modelled from the spec: the SHA-1 round constants. -/
def sha1K (t : Nat) : Nat :=
  if t < 20 then 1518500249
  else if t < 40 then 1859775393
  else if t < 60 then 2400959708
  else 3395469782

/-- The five 32-bit working registers of SHA-1. -/
structure Sha1State where
  a : Nat
  b : Nat
  c : Nat
  d : Nat
  e : Nat

/-- Modelled from the spec: the SHA-1 initial state. -/
def sha1Init : Sha1State :=
  ⟨1732584193, 4023233417, 2562383102, 271733878, 3285377520⟩

/-- Modelled from the spec: extension of the 16 chunk words to the 80-word
message schedule, appending one word per step. -/
def extendW (w : List Nat) : Nat → List Nat
  | 0 => w
  | n + 1 =>
    extendW (w ++ [rotl 1 (Nat.xor
      (Nat.xor (w.getD (w.length - 3) 0) (w.getD (w.length - 8) 0))
      (Nat.xor (w.getD (w.length - 14) 0) (w.getD (w.length - 16) 0)))]) n

/-- Modelled from the spec: one SHA-1 round at index t. -/
def sha1Step (w : List Nat) (st : Sha1State) (t : Nat) : Sha1State :=
  ⟨m32 (rotl 5 st.a + sha1F t st.b st.c st.d + st.e + sha1K t + w.getD t 0),
   st.a, rotl 30 st.b, st.c, st.d⟩

/-- Big-endian grouping of bytes into 32-bit words. -/
def toWords : List Nat → List Nat
  | b0 :: b1 :: b2 :: b3 :: rest =>
    (((b0 * 256 + b1) * 256 + b2) * 256 + b3) :: toWords rest
  | _ => []

/-- Modelled from the spec: processing of one 64-byte chunk, running the 80
rounds and adding the result into the running state. -/
def processChunk (st : Sha1State) (chunk : List Nat) : Sha1State :=
  let w := extendW (toWords chunk) 64
  let r := (List.range 80).foldl (sha1Step w) st
  ⟨m32 (st.a + r.a), m32 (st.b + r.b), m32 (st.c + r.c),
   m32 (st.d + r.d), m32 (st.e + r.e)⟩

/-- Split a byte list into runs of 64. -/
def chunks64 (l : List Nat) : List (List Nat) :=
  match l with
  | [] => []
  | x :: rest => ((x :: rest).take 64) :: chunks64 ((x :: rest).drop 64)
termination_by l.length
decreasing_by simp [List.length_drop]; omega

/-- The 8-byte big-endian encoding of the message bit length. -/
def lenBytes (bitLen : Nat) : List Nat :=
  (List.range 8).map (fun i => bitLen / 2 ^ (8 * (7 - i)) % 256)

/-- Modelled from the spec: SHA-1 padding, one 0x80 byte, zeros up to 56
modulo 64, then the bit length. -/
def padBytes (msg : List Nat) : List Nat :=
  msg ++ [128] ++ List.replicate ((120 - (msg.length + 1) % 64) % 64) 0
    ++ lenBytes (8 * msg.length)

/-- Modelled from the spec: the SHA-1 digest of a byte sequence. -/
def sha1 (msg : List Nat) : Sha1State :=
  (chunks64 (padBytes msg)).foldl processChunk sha1Init

/-- Lowercase hex digit of the low nibble, as Go fmt %x renders it. -/
def hexChar (n : Nat) : Char :=
  if n % 16 < 10 then Char.ofNat (48 + n % 16) else Char.ofNat (87 + n % 16)

/-- The 8 lowercase hex digits of one 32-bit word, most significant first. -/
def wordHex (w : Nat) : List Char :=
  (List.range 8).map (fun i => hexChar (w / 16 ^ (7 - i)))

/-- Lowercase hex rendering of the 20-byte digest. -/
def digestHex (st : Sha1State) : List Char :=
  wordHex st.a ++ wordHex st.b ++ wordHex st.c ++ wordHex st.d ++ wordHex st.e

/-- `readerHash` from `util.go`: reads the whole stream (modelled as the byte
list), and renders its SHA-1 sum in lowercase hex via fmt %x. -/
def readerHash (msg : List Nat) : String :=
  String.mk (digestHex (sha1 msg))

/-- Code-point test for a lowercase hex digit, `[0-9a-f]`. -/
def isLowerHexChar (c : Char) : Bool :=
  (decide (48 ≤ c.toNat) && decide (c.toNat ≤ 57)) ||
  (decide (97 ≤ c.toNat) && decide (c.toNat ≤ 102))

lemma hexChar_lower (n : Nat) : isLowerHexChar (hexChar n) = true := by
  have h : n % 16 < 16 := Nat.mod_lt n (by norm_num)
  unfold hexChar
  generalize hm : n % 16 = m at h ⊢
  interval_cases m <;> decide

lemma wordHex_length (w : Nat) : (wordHex w).length = 8 := by simp [wordHex]

lemma wordHex_lower (w : Nat) : ∀ c ∈ wordHex w, isLowerHexChar c = true := by
  intro c hc
  simp only [wordHex, List.mem_map, List.mem_range] at hc
  obtain ⟨i, _, rfl⟩ := hc
  exact hexChar_lower _

lemma digestHex_length (st : Sha1State) : (digestHex st).length = 40 := by
  simp [digestHex, wordHex_length]

lemma digestHex_lower (st : Sha1State) :
    ∀ c ∈ digestHex st, isLowerHexChar c = true := by
  intro c hc
  simp only [digestHex, List.mem_append] at hc
  rcases hc with ((((h | h) | h) | h) | h) <;> exact wordHex_lower _ c h

/-- C7: `readerHash` is deterministic: equal byte contents always yield the
identical hash string, namely the SHA-1 digest rendered as 40 lowercase hex
characters, with no dependence on any other state. -/
theorem readerHash_deterministic (b1 b2 : List Nat) (h : b1 = b2) :
    readerHash b1 = readerHash b2
    ∧ (readerHash b1).toList.length = 40
    ∧ ∀ c ∈ (readerHash b1).toList, isLowerHexChar c = true := by
  subst h
  exact ⟨rfl, digestHex_length (sha1 b1),
    fun c hc => digestHex_lower (sha1 b1) c hc⟩

/-- Witness for C7 at the byte content abc. -/
theorem readerHash_deterministic_witness :
    ([97, 98, 99] : List Nat) = [97, 98, 99]
    ∧ (readerHash [97, 98, 99] = readerHash [97, 98, 99]
       ∧ (readerHash [97, 98, 99]).toList.length = 40
       ∧ ∀ c ∈ (readerHash [97, 98, 99]).toList, isLowerHexChar c = true) :=
  ⟨rfl, readerHash_deterministic [97, 98, 99] [97, 98, 99] rfl⟩

end Cknu
